import Mathlib

/-!
# A shallow embedding of the `triangulator` crate

This file embeds the incremental 2-D Delaunay triangulator (convex-hull
bootstrap, cavity insertion, Lawson flips, triangle↔edge adjacency index)
and proves or refutes the specification claims about it.

Modelling conventions:
* `f32` coordinates are modelled as exact rationals `ℚ`.  A possibly-NaN
  input coordinate is `Option ℚ` (`none` = NaN); after the NaN scan the
  pipeline works on plain rational points.
* Rust's `f32::EPSILON` is the rational `1 / 2^23`.
* Rust's `f32::signum` returns `1.0` on `+0.0`; `sgn` below returns `1` at `0`
  accordingly.
* `HashSet`/`HashMap` contents are kept as sorted duplicate-free lists, so a
  set iterates in a fixed canonical order.  The one place where iteration
  order of a set is materialised into a `Vec` (the cavity edge list inside
  `add_point`) additionally takes an explicit reordering parameter, so that
  order dependence can itself be analysed.
* A `Vec` that is pushed/popped at the back is modelled either directly
  (`popLast`) or by walking the reversed list, as noted at each definition.
* Rust panics (slice-index / `unwrap` failures) and fuel exhaustion of the
  two worklist loops are modelled as `Option.none`; returned
  `TriangulatorError` values are `Except.error`.
-/

namespace Triangulator

abbrev PointIdx : Type := Nat
abbrev TriIdx : Type := Nat

/-- `point.rs`: a 2-D coordinate (modelled exactly, over `ℚ`). -/
structure QPoint where
  x : ℚ
  y : ℚ
deriving DecidableEq, Repr

/-- An input coordinate pair as handed to the library: each `f32` coordinate
is either a value or NaN (`none`). -/
structure IPoint where
  x : Option ℚ
  y : Option ℚ
deriving DecidableEq, Repr

/-- `point.rs::cross`: `(a.x - origin.x) * (b.y - origin.y) - (a.y - origin.y) * (b.x - origin.x)`. -/
def cross (a b origin : QPoint) : ℚ :=
  (a.x - origin.x) * (b.y - origin.y) - (a.y - origin.y) * (b.x - origin.x)

/-- `f32::EPSILON` as a rational. -/
def f32Epsilon : ℚ := 1 / 2 ^ 23

/-- Rust `f32::signum` (on non-NaN, non-negative-zero inputs): `1` for
`x ≥ 0` (`+0.0` included), `-1` for `x < 0`. -/
def sgn (q : ℚ) : ℚ := if 0 ≤ q then 1 else -1

/-- `delaunay_inc::same_side_of_line`. -/
def sameSideOfLine (p0 p1 linestart lineend : QPoint) : Bool :=
  let cp1 := cross lineend p0 linestart
  let cp2 := cross lineend p1 linestart
  decide (sgn cp1 = sgn cp2)

/-- `delaunay_inc::point_in_triangle`. -/
def pointInTriangle (point a b c : QPoint) : Bool :=
  if |cross a b c| < f32Epsilon then
    false
  else
    sameSideOfLine point a b c && sameSideOfLine point b a c && sameSideOfLine point c a b

/-- `triangle.rs::Triangle`: an ordered triple of point indices. -/
structure Triangle where
  index0 : PointIdx
  index1 : PointIdx
  index2 : PointIdx
deriving DecidableEq, Repr

/-- `edge.rs::Edge`: canonicalized unordered pair (`Edge::new`). -/
structure Edge where
  index_0 : PointIdx
  index_1 : PointIdx
deriving DecidableEq, Repr

/-- `Edge::new`: lower index first. -/
def Edge.new (index_0 index_1 : PointIdx) : Edge :=
  if index_0 < index_1 then ⟨index_0, index_1⟩ else ⟨index_1, index_0⟩

/-- `ordered_pair.rs::OrderedPair::new`. -/
structure OrderedPair where
  a : TriIdx
  b : TriIdx
deriving DecidableEq, Repr

def OrderedPair.new (first second : TriIdx) : OrderedPair :=
  if first > second then ⟨second, first⟩ else ⟨first, second⟩

/-- Slice indexing `points[i]`; all reachable accesses are in bounds, an
out-of-bounds access (a Rust panic) is given a default point. -/
def getP (points : List QPoint) (i : Nat) : QPoint := points.getD i ⟨0, 0⟩

/-- Slice indexing `triangles[i]`. -/
def getT (triangles : List Triangle) (i : Nat) : Triangle := triangles.getD i ⟨0, 0, 0⟩

/-- `circle.rs::Circle`. -/
structure Circle where
  pos : QPoint
  radius_sqr : ℚ
deriving DecidableEq, Repr

/-- `Circle::from_triangle`: determinant-based circumcenter; squared radius is
the squared distance from the center to vertex `a`.  (`d = 0`, a collinear
triangle, divides by zero: in `ℚ` the quotient is `0`; the source produces
non-finite values there and its callers are documented not to pass
degenerate triangles.) -/
def Circle.fromTriangle (tri : Triangle) (points : List QPoint) : Circle :=
  let a := getP points tri.index0
  let b := getP points tri.index1
  let c := getP points tri.index2
  let d := 2 * (a.x * (b.y - c.y) + b.x * (c.y - a.y) + c.x * (a.y - b.y))
  let a_s := a.x * a.x + a.y * a.y
  let b_s := b.x * b.x + b.y * b.y
  let c_s := c.x * c.x + c.y * c.y
  let circle_x := (a_s * (b.y - c.y) + b_s * (c.y - a.y) + c_s * (a.y - b.y)) / d
  let circle_y := (a_s * (c.x - b.x) + b_s * (a.x - c.x) + c_s * (b.x - a.x)) / d
  let rad_sqr := (circle_x - a.x) * (circle_x - a.x) + (circle_y - a.y) * (circle_y - a.y)
  ⟨⟨circle_x, circle_y⟩, rad_sqr⟩

/-- `Circle::contains`: closed-disk test `d_sqr <= radius_sqr`. -/
def Circle.contains (c : Circle) (point : QPoint) : Bool :=
  let dx := point.x - c.pos.x
  let dy := point.y - c.pos.y
  decide (dx * dx + dy * dy ≤ c.radius_sqr)

/-- `lib.rs::TriangulatorError`. -/
inductive TriangulatorError where
  | TooFewPoints : TriangulatorError
  | NANInInput : Nat → TriangulatorError
  | PointOutsideOfHull : TriangulatorError
deriving DecidableEq, Repr

/-! ## Canonical set and map representations

A Rust `HashSet` is represented as a sorted duplicate-free list (so its
canonical iteration order is the sorted order); a `HashMap` is an
association list with unique keys. -/

/-- Strict lexicographic order on canonical edges. -/
def edgeLt (e f : Edge) : Bool :=
  decide (e.index_0 < f.index_0) || (decide (e.index_0 = f.index_0) && decide (e.index_1 < f.index_1))

/-- Insert into a sorted duplicate-free edge list (`HashSet<Edge>::insert`). -/
def insertEdge (e : Edge) : List Edge → List Edge
  | [] => [e]
  | f :: rest =>
    if e = f then f :: rest
    else if edgeLt e f then e :: f :: rest
    else f :: insertEdge e rest

/-- Insert into a sorted duplicate-free index list (`HashSet<usize>::insert`). -/
def insertIdxSet (t : Nat) : List Nat → List Nat
  | [] => [t]
  | u :: rest =>
    if t = u then u :: rest
    else if t < u then t :: u :: rest
    else u :: insertIdxSet t rest

/-- Association-list update: replace the binding of `k`, or append one. -/
def updateA {κ ν : Type} [DecidableEq κ] (k : κ) (v : ν) : List (κ × ν) → List (κ × ν)
  | [] => [(k, v)]
  | (k', v') :: rest => if k = k' then (k, v) :: rest else (k', v') :: updateA k v rest

/-- Association-list removal of the binding of `k`. -/
def eraseA {κ ν : Type} [DecidableEq κ] (k : κ) : List (κ × ν) → List (κ × ν)
  | [] => []
  | (k', v') :: rest => if k = k' then rest else (k', v') :: eraseA k rest

/-- Association-list lookup (`HashMap` get). -/
def lookupA {κ ν : Type} [DecidableEq κ] (k : κ) : List (κ × ν) → Option ν
  | [] => none
  | (k', v) :: rest => if k = k' then some v else lookupA k rest

/-- `tri_edge_mapping.rs::TriangleEdgeMapping`. -/
structure TriangleEdgeMapping where
  edge_tri_map : List (Edge × List TriIdx)
  tri_edge_map : List (TriIdx × List Edge)
deriving DecidableEq, Repr

def TriangleEdgeMapping.empty : TriangleEdgeMapping := ⟨[], []⟩

/-- The three canonical edges of a triangle, as the `HashSet` built by
`add_triangle` (inserted in source order, kept sorted and deduplicated). -/
def triangleEdges (tri : Triangle) : List Edge :=
  insertEdge (Edge.new tri.index2 tri.index0)
    (insertEdge (Edge.new tri.index1 tri.index2)
      (insertEdge (Edge.new tri.index0 tri.index1) []))

/-- Register one owning triangle under one edge (the per-edge body of
`add_triangle`'s second loop). -/
def addOwner (em : List (Edge × List TriIdx)) (e : Edge) (t : TriIdx) :
    List (Edge × List TriIdx) :=
  match lookupA e em with
  | some s => updateA e (insertIdxSet t s) em
  | none => updateA e [t] em

/-- `TriangleEdgeMapping::add_triangle`. -/
def TriangleEdgeMapping.addTriangle (m : TriangleEdgeMapping) (triangle_index : TriIdx)
    (triangles : List Triangle) : TriangleEdgeMapping :=
  let edges := triangleEdges (getT triangles triangle_index)
  { tri_edge_map := updateA triangle_index edges m.tri_edge_map
    edge_tri_map := edges.foldl (fun em e => addOwner em e triangle_index) m.edge_tri_map }

/-- Unregister one owning triangle from one edge, dropping the edge entry when
its owner set becomes empty (the per-edge body of `remove_triangle`'s loop). -/
def removeOwner (em : List (Edge × List TriIdx)) (e : Edge) (t : TriIdx) :
    List (Edge × List TriIdx) :=
  let em' :=
    match lookupA e em with
    | some s => updateA e (s.erase t) em
    | none => em
  match lookupA e em' with
  | some s => if s.isEmpty then eraseA e em' else em'
  | none => em'

/-- `TriangleEdgeMapping::remove_triangle`. -/
def TriangleEdgeMapping.removeTriangle (m : TriangleEdgeMapping) (triangle_index : TriIdx) :
    TriangleEdgeMapping :=
  let edges := (lookupA triangle_index m.tri_edge_map).getD []
  { edge_tri_map := edges.foldl (fun em e => removeOwner em e triangle_index) m.edge_tri_map
    tri_edge_map := eraseA triangle_index m.tri_edge_map }

/-- `TriangleEdgeMapping::get_edges` (canonical iteration order of the set). -/
def TriangleEdgeMapping.getEdges (m : TriangleEdgeMapping) (triangle_index : TriIdx) :
    List Edge :=
  (lookupA triangle_index m.tri_edge_map).getD []

/-- `TriangleEdgeMapping::get_triangles`. -/
def TriangleEdgeMapping.getTriangles (m : TriangleEdgeMapping) (edge : Edge) : List TriIdx :=
  (lookupA edge m.edge_tri_map).getD []

/-- `TriangleEdgeMapping::neighbouring_triangles`. -/
def TriangleEdgeMapping.neighbouringTriangles (m : TriangleEdgeMapping)
    (triangle_index : TriIdx) : List TriIdx :=
  (m.getEdges triangle_index).foldl
    (fun acc e => acc ++ (m.getTriangles e).filter (fun t => t ≠ triangle_index)) []

/-! ## Convex hull (`convex_hull.rs`) -/

/-- Whether an input point has a NaN coordinate. -/
def isNanPt (p : IPoint) : Bool := p.x.isNone || p.y.isNone

/-- The NaN scan of `sort_indices`: index of the first point with a NaN
coordinate. -/
def findNaNFrom (i : Nat) : List IPoint → Option Nat
  | [] => none
  | p :: rest => if isNanPt p then some i else findNaNFrom (i + 1) rest

/-- A validated input point. -/
def toQ (p : IPoint) : QPoint := ⟨p.x.getD 0, p.y.getD 0⟩

/-- The sort key comparison of `sort_indices`: strictly less under
(x ascending, y ascending tie-break). -/
def keyLt (points : List QPoint) (a b : Nat) : Bool :=
  let pa := getP points a
  let pb := getP points b
  decide (pa.x < pb.x) || (decide (pa.x = pb.x) && decide (pa.y < pb.y))

/-- Stable insertion of an index into a list sorted by `keyLt` (an element is
placed after every earlier element with an equal key, matching the stability
of Rust's `sort_by`). -/
def insertSorted (points : List QPoint) (a : Nat) : List Nat → List Nat
  | [] => [a]
  | b :: l => if keyLt points b a then b :: insertSorted points a l else a :: b :: l

/-- Stable sort of point indices by (x, y); the model of `sort_by` in
`sort_indices` (any stable sort under the same total preorder produces the
same list). -/
def sortIndices (points : List QPoint) : List Nat → List Nat
  | [] => []
  | a :: l => insertSorted points a (sortIndices points l)

/-- `sort_indices`: NaN scan over all of `points`, then the stable sort of
the given indices. -/
def sortIndicesChecked (point_indices : List Nat) (pts : List IPoint) :
    Except TriangulatorError (List Nat) :=
  match findNaNFrom 0 pts with
  | some i => .error (.NANInInput i)
  | none => .ok (sortIndices (pts.map toQ) point_indices)

/-- `Vec::swap_remove(i)`: replace the element at `i` with the last element
and pop the last. -/
def swapRemove (l : List Nat) (i : Nat) : List Nat :=
  match l.getLast? with
  | none => l
  | some last => (l.set i last).dropLast

/-- The inner `while` of `half_hull`: pop chain points while the last two and
the candidate do not make the required turn.  The chain is kept top-first
(the reverse of the source's `Vec`). -/
def popLoop (points : List QPoint) (cand : Nat) :
    List Nat → List Nat → List Nat × List Nat
  | top :: second :: rest, left =>
    if cross (getP points second) (getP points top) (getP points cand) < 0 then
      popLoop points cand (second :: rest) (left ++ [top])
    else (top :: second :: rest, left)
  | hull, left => (hull, left)

/-- One candidate step of `half_hull`: run the pop loop, push the candidate,
and `swap_remove` it from the left-over list if present. -/
def halfHullStep (points : List QPoint) (st : List Nat × List Nat) (cand : Nat) :
    List Nat × List Nat :=
  let (hull, left) := popLoop points cand st.1 st.2
  let hull := cand :: hull
  let left :=
    match left.findIdx? (fun p => p = cand) with
    | some pos => swapRemove left pos
    | none => left
  (hull, left)

/-- `half_hull` over a candidate index sequence; returns the chain in source
order together with the popped left-over indices. -/
def halfHull (points : List QPoint) (cands : List Nat) : List Nat × List Nat :=
  let (hull, left) := cands.foldl (halfHullStep points) ([], [])
  (hull.reverse, left)

/-- `convex_hull`: sorted scan for the lower chain, reverse-sorted scan for
the upper chain, trim the duplicated endpoints, concatenate. -/
def convexHull (pts : List IPoint) : Except TriangulatorError (List Nat × List Nat) := do
  let point_indices ← sortIndicesChecked (List.range pts.length) pts
  let points := pts.map toQ
  let (lower, left) := halfHull points point_indices
  let left := left ++ [lower.getLastD 0, lower.headD 0]
  let left ← sortIndicesChecked left pts
  let (upper, points_left) := halfHull points left.reverse
  let upper := upper.dropLast.drop 1
  return (lower ++ upper, points_left)

/-- `generate_triangles_from_hull`: fan triangulation from `hull[0]`. -/
def generateTrianglesFromHull (hull : List Nat) : List Triangle :=
  (List.range' 2 (hull.length - 2)).map
    (fun i => ⟨hull.getD 0 0, hull.getD (i - 1) 0, hull.getD i 0⟩)

/-! ## Incremental engine (`delaunay_inc/mod.rs`) -/

/-- `Vec::pop` together with the remaining vector. -/
def popLast {α : Type} : List α → Option (α × List α)
  | [] => none
  | [x] => some (x, [])
  | x :: y :: rest =>
    match popLast (y :: rest) with
    | some (a, r) => some (a, x :: r)
    | none => none

/-- `delaunay_inc::commonality`: the two non-shared vertices (the source keeps
the last non-common vertex of `a` and the first of `b`) and the two shared
vertices.  The source's `debug_assert`s failing — fewer than two shared
vertices (an out-of-bounds `common_points[1]` panic follows in release) or a
missing non-common vertex (a `points[usize::MAX]` panic follows at the use
site) — is `none`. -/
def commonality (a b : Triangle) : Option ((PointIdx × PointIdx) × (PointIdx × PointIdx)) :=
  let aIndices := [a.index0, a.index1, a.index2]
  let bIndices := [b.index0, b.index1, b.index2]
  let common := aIndices.filter (fun x => bIndices.contains x)
  match (aIndices.filter (fun x => !bIndices.contains x)).getLast?,
      (bIndices.filter (fun x => !aIndices.contains x)).head? with
  | some nca, some ncb =>
    match common with
    | [c0, c1] => some ((nca, ncb), (c0, c1))
    | _ => none
  | _, _ => none

/-- `delaunay_inc::should_flip` (note the source computes `circle_b` from
triangle `a` as well; it is only used in a `debug_assert`). -/
def shouldFlip (a b : Triangle) (points : List QPoint) : Option Bool :=
  let circle_a := Circle.fromTriangle a points
  match commonality a b with
  | none => none
  | some ((_, point_b), _) => some (circle_a.contains (getP points point_b))

/-- `DelaunayIncremental::flip`: replace the two triangles in place by the
diagonal-swapped pair and re-register them. -/
def flipTris (triangles : List Triangle) (m : TriangleEdgeMapping) (a b : TriIdx) :
    Option (List Triangle × TriangleEdgeMapping) :=
  match commonality (getT triangles a) (getT triangles b) with
  | none => none
  | some ((non_common_a, non_common_b), (common_0, common_1)) =>
    let m := (m.removeTriangle a).removeTriangle b
    let triangles := (triangles.set a ⟨non_common_a, non_common_b, common_0⟩).set b
      ⟨non_common_a, non_common_b, common_1⟩
    some (triangles, (m.addTriangle a triangles).addTriangle b triangles)

/-- The inner neighbour scan of `flip_pairs`: find the first neighbour whose
pair is unchecked and for which `should_flip` holds (`none` = a panic inside
`should_flip`; `some none` = no flip among the neighbours). -/
def flipScan (points : List QPoint) (triangles : List Triangle) (tri : TriIdx)
    (already_checked : List OrderedPair) : List TriIdx → Option (Option (TriIdx × OrderedPair))
  | [] => some none
  | neighbour :: rest =>
    let pair := OrderedPair.new tri neighbour
    if already_checked.contains pair then
      flipScan points triangles tri already_checked rest
    else
      match shouldFlip (getT triangles tri) (getT triangles neighbour) points with
      | none => none
      | some true => some (some (neighbour, pair))
      | some false => flipScan points triangles tri already_checked rest

/-- The worklist loop of `flip_pairs`.  The stack is kept top-first (the
reverse of the source's `Vec`); `fuel` bounds the loop (`none` on
exhaustion). -/
def flipLoop (points : List QPoint) :
    Nat → List TriIdx → List OrderedPair → List Triangle → TriangleEdgeMapping →
    Option (List Triangle × TriangleEdgeMapping)
  | 0, _, _, _, _ => none
  | _ + 1, [], _, triangles, m => some (triangles, m)
  | fuel + 1, tri :: stack, already_checked, triangles, m =>
    match flipScan points triangles tri already_checked (m.neighbouringTriangles tri) with
    | none => none
    | some none => flipLoop points fuel stack already_checked triangles m
    | some (some (neighbour, pair)) =>
      match flipTris triangles m tri neighbour with
      | none => none
      | some (triangles, m) =>
        flipLoop points fuel (neighbour :: tri :: stack) (already_checked ++ [pair])
          triangles m

/-- `DelaunayIncremental::flip_pairs` (`check_stack` in `Vec` order). -/
def flipPairs (points : List QPoint) (check_stack : List TriIdx) (triangles : List Triangle)
    (m : TriangleEdgeMapping) (fuel : Nat) : Option (List Triangle × TriangleEdgeMapping) :=
  flipLoop points fuel check_stack.reverse [] triangles m

/-- The cavity-edge toggle of `add_point`: one bad triangle's edges are
inserted into the cavity set, except that an edge whose two owners are both
already marked for removal is removed from it. -/
def toggleEdges (m : TriangleEdgeMapping) (triangles_to_remove : List TriIdx)
    (cavity_edges : List Edge) (edges : List Edge) : List Edge :=
  edges.foldl
    (fun cav e =>
      let tris_of_edge := m.getTriangles e
      if tris_of_edge.length = 2 &&
          triangles_to_remove.contains (tris_of_edge.getD 0 0) &&
          triangles_to_remove.contains (tris_of_edge.getD 1 0) then
        cav.erase e
      else insertEdge e cav)
    cavity_edges

/-- The cavity-discovery worklist of `add_point`.  The stack is kept
top-first; pushed neighbours are the neighbours of the *originally located*
triangle, as in the source.  Returns the removal list (in discovery order)
and the final cavity edge set. -/
def cavityLoop (points : List QPoint) (triangles : List Triangle) (m : TriangleEdgeMapping)
    (point : QPoint) (containing : TriIdx) :
    Nat → List TriIdx → List TriIdx → List Edge → Option (List TriIdx × List Edge)
  | 0, _, _, _ => none
  | _ + 1, [], triangles_to_remove, cavity_edges => some (triangles_to_remove, cavity_edges)
  | fuel + 1, triangle_to_check :: stack, triangles_to_remove, cavity_edges =>
    let circle := Circle.fromTriangle (getT triangles triangle_to_check) points
    if circle.contains point then
      let triangles_to_remove := triangles_to_remove ++ [triangle_to_check]
      let cavity_edges :=
        toggleEdges m triangles_to_remove cavity_edges (m.getEdges triangle_to_check)
      let stack :=
        (m.neighbouringTriangles containing).foldl
          (fun st tri_idx =>
            if !triangles_to_remove.contains tri_idx && !st.contains tri_idx then
              tri_idx :: st
            else st)
          stack
      cavityLoop points triangles m point containing fuel stack triangles_to_remove cavity_edges
    else
      cavityLoop points triangles m point containing fuel stack triangles_to_remove cavity_edges

/-- A retriangulation triangle: the new point joined to a cavity edge's two
endpoints (`Triangle::new(point_idx, cavity_edge.index_0, cavity_edge.index_1)`). -/
def newTri (point_idx : PointIdx) (e : Edge) : Triangle := ⟨point_idx, e.index_0, e.index_1⟩

/-- The slot-overwriting loop of `add_point`: walk the removal list in order,
each slot taking the cavity edge popped from the back of the `Vec` (modelled
by walking the reversed edge list head-first); popping from an empty list is
the source's `unwrap` panic (`none`). -/
def overwriteLoop (point_idx : PointIdx) :
    List TriIdx → List Edge → List Triangle → TriangleEdgeMapping →
    Option (List Edge × List Triangle × TriangleEdgeMapping)
  | [], cavRev, triangles, m => some (cavRev, triangles, m)
  | tri_idx :: rest, cavRev, triangles, m =>
    match cavRev with
    | [] => none
    | cavity_edge :: cavRev =>
      let triangles := triangles.set tri_idx (newTri point_idx cavity_edge)
      overwriteLoop point_idx rest cavRev triangles (m.addTriangle tri_idx triangles)

/-- The appending loop of `add_point`: one new triangle pushed per remaining
cavity edge (popped from the back, i.e. walking the reversed list), each
index recorded in `changed_triangles`. -/
def appendLoop (point_idx : PointIdx) :
    List Edge → List Triangle → TriangleEdgeMapping → List TriIdx →
    List Triangle × TriangleEdgeMapping × List TriIdx
  | [], triangles, m, changed => (triangles, m, changed)
  | cavity_edge :: cavRev, triangles, m, changed =>
    let triangles := triangles ++ [newTri point_idx cavity_edge]
    let tri_idx := triangles.length - 1
    appendLoop point_idx cavRev triangles (m.addTriangle tri_idx triangles)
      (changed ++ [tri_idx])

/-- The retriangulation phase of `add_point` (after the removals): overwrite
the removed slots, then append the remainder; returns the new triangle array,
mapping, and the `changed_triangles` list. -/
def retriangulate (point_idx : PointIdx) (triangles_to_remove : List TriIdx)
    (cavity_edges : List Edge) (triangles : List Triangle) (m : TriangleEdgeMapping) :
    Option (List Triangle × TriangleEdgeMapping × List TriIdx) :=
  match overwriteLoop point_idx triangles_to_remove cavity_edges.reverse triangles m with
  | none => none
  | some (cavRev, triangles, m) =>
    let (triangles, m, appended) := appendLoop point_idx cavRev triangles m []
    some (triangles, m, triangles_to_remove ++ appended)

/-- The point-location scan of `add_point`: the first triangle whose interior
contains the point, defaulting to index 0. -/
def findContaining (points : List QPoint) (triangles : List Triangle) (point : QPoint) :
    TriIdx :=
  match triangles.findIdx? (fun t =>
      pointInTriangle point (getP points t.index0) (getP points t.index1)
        (getP points t.index2)) with
  | some idx => idx
  | none => 0

/-- `DelaunayIncremental` (the `triangles` array, the left-over insertion
queue, and the adjacency mapping). -/
structure DelaunayIncremental where
  triangles : List Triangle
  points_to_add : List PointIdx
  tri_edge_mapping : TriangleEdgeMapping
deriving DecidableEq, Repr

def DelaunayIncremental.new : DelaunayIncremental := ⟨[], [], .empty⟩

/-- `DelaunayIncremental::add_point`, parameterized by `reorder`: the order in
which the cavity-edge `HashSet` is materialised into a `Vec`
(`cavity_edges.into_iter().collect()`); the canonical model passes `id`. -/
def addPointGen (reorder : List Edge → List Edge) (s : DelaunayIncremental)
    (point_idx : PointIdx) (points : List QPoint) (fuel : Nat) :
    Option DelaunayIncremental :=
  let point := getP points point_idx
  let containing := findContaining points s.triangles point
  match cavityLoop points s.triangles s.tri_edge_mapping point containing fuel
      [containing] [] [] with
  | none => none
  | some (triangles_to_remove, cavity_edges) =>
    let cavity_edges := reorder cavity_edges
    let m := triangles_to_remove.foldl (fun m ti => m.removeTriangle ti) s.tri_edge_mapping
    match retriangulate point_idx triangles_to_remove cavity_edges s.triangles m with
    | none => none
    | some (triangles, m, changed_triangles) =>
      match flipPairs points changed_triangles triangles m fuel with
      | none => none
      | some (triangles, m) =>
        some { triangles := triangles, points_to_add := s.points_to_add,
               tri_edge_mapping := m }

/-- `DelaunayIncremental::do_step`: pop the last queued point index and insert
it; `false` and no state change when the queue is empty. -/
def doStepGen (reorder : List Edge → List Edge) (s : DelaunayIncremental)
    (points : List QPoint) (fuel : Nat) : Option (Bool × DelaunayIncremental) :=
  match popLast s.points_to_add with
  | some (point_idx, rest) =>
    match addPointGen reorder { s with points_to_add := rest } point_idx points fuel with
    | none => none
    | some s' => some (true, s')
  | none => some (false, s)

/-- `DelaunayIncremental::initial_triangulation`: convex hull (with its
validation), fan triangulation, registration, and — when the left-over queue
is already empty — a full legalization pass. -/
def initialTriangulation (s : DelaunayIncremental) (pts : List IPoint) (fuel : Nat) :
    Option (Except TriangulatorError (DelaunayIncremental × List Triangle)) :=
  match convexHull pts with
  | .error e => some (.error e)
  | .ok (hull, points_inside_hull) =>
    let triangles := generateTrianglesFromHull hull
    let m := (List.range triangles.length).foldl
      (fun m i => m.addTriangle i triangles) s.tri_edge_mapping
    if points_inside_hull.isEmpty then
      match flipPairs (pts.map toQ) (List.range triangles.length) triangles m fuel with
      | none => none
      | some (triangles, m) =>
        some (.ok (⟨triangles, points_inside_hull, m⟩, triangles))
    else
      some (.ok (⟨triangles, points_inside_hull, m⟩, triangles))

/-- The `while triangulator.do_step(points) {}` loop of
`delaunay_inc::triangulate`. -/
def runSteps (reorder : List Edge → List Edge) (points : List QPoint) :
    Nat → DelaunayIncremental → Option DelaunayIncremental
  | 0, _ => none
  | fuel + 1, s =>
    match doStepGen reorder s points fuel with
    | none => none
    | some (true, s') => runSteps reorder points fuel s'
    | some (false, s') => some s'

/-- `lib.rs::triangulate`, parameterized by the cavity-edge collection order:
length validation, then the incremental run. -/
def triangulateGen (reorder : List Edge → List Edge) (pts : List IPoint) (fuel : Nat) :
    Option (Except TriangulatorError (List Triangle)) :=
  if pts.length < 3 then some (.error .TooFewPoints)
  else
    match initialTriangulation .new pts fuel with
    | none => none
    | some (.error e) => some (.error e)
    | some (.ok (s, _)) =>
      match runSteps reorder (pts.map toQ) fuel s with
      | none => none
      | some s' => some (.ok s'.triangles)

/-- `lib.rs::triangulate` with the canonical set order. -/
def triangulateM (pts : List IPoint) (fuel : Nat) :
    Option (Except TriangulatorError (List Triangle)) :=
  triangulateGen id pts fuel

/-- `Triangulator::initial_triangulation` (the facade): length validation
first; on a validation error the wrapped state is unchanged. -/
def facadeInitial (t : DelaunayIncremental) (pts : List IPoint) (fuel : Nat) :
    Option (DelaunayIncremental × Except TriangulatorError (List Triangle)) :=
  if pts.length < 3 then some (t, .error .TooFewPoints)
  else
    match initialTriangulation t pts fuel with
    | none => none
    | some (.error e) => some (t, .error e)
    | some (.ok (s, ts)) => some (s, .ok ts)

/-! ## Specification-side notions

These definitions follow the specification's words (not the source); they are
compared against the embedded code. -/

/-- Shorthand for a valid (non-NaN) input point. -/
def ipt (x y : ℚ) : IPoint := ⟨some x, some y⟩

/-- Whether triangle `t` has `i` among its three vertex indices. -/
def triangleUses (t : Triangle) (i : Nat) : Bool :=
  decide (t.index0 = i) || decide (t.index1 = i) || decide (t.index2 = i)

/-- Spec-side closed-disk Delaunay check: for every output triangle and every
input point that is not one of its three vertices, the point lies outside or
exactly on that triangle's circumcircle (no point strictly inside). -/
def delaunayOK (pts : List QPoint) (tris : List Triangle) : Bool :=
  tris.all fun t =>
    (List.range pts.length).all fun i =>
      triangleUses t i ||
        (let c := Circle.fromTriangle t pts
         let p := getP pts i
         !(decide ((p.x - c.pos.x) * (p.x - c.pos.x) + (p.y - c.pos.y) * (p.y - c.pos.y)
             < c.radius_sqr)))

/-- Spec-side: input point `i` lies on the boundary of the convex hull of the
points — some nonzero linear functional attains its maximum over all points
at `i`. -/
def OnHull (pts : List QPoint) (i : Nat) : Prop :=
  ∃ u v : ℚ, ¬(u = 0 ∧ v = 0) ∧
    ∀ j < pts.length,
      u * (getP pts j).x + v * (getP pts j).y ≤ u * (getP pts i).x + v * (getP pts i).y

/-- Spec-side ('strictly inside'): `p` is strictly on the same side as the
opposite vertex of each of the three edge lines (each of the source's three
cross-product pairs strictly agrees in sign). -/
def StrictlyInside (p a b c : QPoint) : Prop :=
  0 < cross c p b * cross c a b ∧ 0 < cross c p a * cross c b a ∧
    0 < cross b p a * cross b c a

/-- Spec-side ('strictly outside'): `p` is strictly on the opposite side of
some edge line from the opposite vertex. -/
def StrictlyOutside (p a b c : QPoint) : Prop :=
  cross c p b * cross c a b < 0 ∨ cross c p a * cross c b a < 0 ∨
    cross b p a * cross b c a < 0

/-- Spec-side: all points of the list are collinear (every cross product of
three of them vanishes). -/
def CollinearPts (pts : List QPoint) : Prop :=
  ∀ p ∈ pts, ∀ q ∈ pts, ∀ r ∈ pts, cross p q r = 0

deriving instance DecidableEq for Except

/-! ## Concrete inputs used by the counterexamples and failing-input runs -/

/-- The repository's own `returns_three_triangles` input: a triangle with one
interior point. -/
def c1Pts : List IPoint := [ipt 0 0, ipt 1 0, ipt (1/2) 1, ipt (1/2) (1/2)]

def c1Q : List QPoint := c1Pts.map toQ

/-- The state reached by the bootstrap on `c1Pts` (checked against the run in
the counterexample below): one fan triangle, point 3 queued. -/
def c1State : DelaunayIncremental :=
  ⟨[⟨0, 1, 2⟩], [3],
    ⟨[(Edge.new 0 1, [0]), (Edge.new 0 2, [0]), (Edge.new 1 2, [0])],
     [(0, [Edge.new 0 1, Edge.new 0 2, Edge.new 1 2])]⟩⟩

/-- Five distinct points on which the final mesh violates the
empty-circumcircle property. -/
def c2Pts : List IPoint := [ipt 0 0, ipt 0 1, ipt 1 0, ipt 1 2, ipt 2 0]

def c2Out : List Triangle := [⟨1, 2, 0⟩, ⟨1, 4, 3⟩, ⟨1, 2, 4⟩]

/-- Seven distinct points (five on the convex hull) on which the output has
5 triangles instead of `2n - h - 2 = 7`. -/
def c3Pts : List IPoint :=
  [ipt 3 1, ipt 2 1, ipt 0 0, ipt 2 0, ipt 1 2, ipt 3 3, ipt 1 1]

def c3Q : List QPoint := c3Pts.map toQ

def c3Out : List Triangle := [⟨6, 3, 2⟩, ⟨6, 2, 4⟩, ⟨0, 4, 5⟩, ⟨0, 4, 6⟩, ⟨6, 3, 0⟩]

/-- Seven distinct points on which point index 4 is silently dropped from the
output. -/
def c4Pts : List IPoint :=
  [ipt 3 1, ipt 0 0, ipt 1 1, ipt 3 3, ipt 2 1, ipt 2 3, ipt 1 0]

def c4Out : List Triangle := [⟨2, 6, 1⟩, ⟨2, 1, 5⟩, ⟨0, 5, 3⟩, ⟨0, 5, 2⟩, ⟨2, 6, 0⟩]

/-- Three collinear points. -/
def c9Pts : List IPoint := [ipt 0 0, ipt 1 0, ipt 2 0]

/-! ## Claim theorems -/

/-- C1 counterexample.  On the repository's own 4-point test input, at the
moment retriangulation of the single insertion begins, the cavity has 3
boundary edges but only 1 triangle marked for removal: the boundary-edge
count does not equal the removed-triangle count. -/
theorem c1_cavity_count_counterexample :
    initialTriangulation .new c1Pts 50 = some (.ok (c1State, c1State.triangles)) ∧
    findContaining c1Q c1State.triangles (getP c1Q 3) = 0 ∧
    cavityLoop c1Q c1State.triangles c1State.tri_edge_mapping (getP c1Q 3) 0 50 [0] [] [] =
      some ([0], [Edge.new 0 1, Edge.new 0 2, Edge.new 1 2]) ∧
    ([Edge.new 0 1, Edge.new 0 2, Edge.new 1 2] : List Edge).length ≠
      ([0] : List TriIdx).length := by
  refine ⟨?_, ?_, ?_, ?_⟩ <;> with_unfolding_all decide

/-- C2: the final mesh of the validated 5-point input `c2Pts` has a triangle
whose circumcircle strictly contains an input point that is not one of its
vertices — the closed-disk empty-circumcircle property fails on the output. -/
theorem c2_delaunay_violated :
    triangulateM c2Pts 50 = some (.ok c2Out) ∧
    delaunayOK (c2Pts.map toQ) c2Out = false := by
  refine ⟨?_, ?_⟩ <;> with_unfolding_all decide

/-- C4: on the validated 7-point input `c4Pts`, the output triangle list
never mentions input point index 4 — an input point is dropped. -/
theorem c4_point_dropped :
    triangulateM c4Pts 80 = some (.ok c4Out) ∧
    c4Out.any (fun t => triangleUses t 4) = false := by
  refine ⟨?_, ?_⟩ <;> with_unfolding_all decide

/-- C5: the output triangle sequence depends on the iteration order in which
the cavity-edge `HashSet` is materialised into a `Vec`: on the 4-point input
`c1Pts`, the canonical order and its reverse place different triangles at
index 0. -/
theorem c5_iteration_order_leaks :
    triangulateGen id c1Pts 50 = some (.ok [⟨3, 1, 2⟩, ⟨3, 0, 2⟩, ⟨3, 0, 1⟩]) ∧
    triangulateGen List.reverse c1Pts 50 = some (.ok [⟨3, 0, 1⟩, ⟨3, 0, 2⟩, ⟨3, 1, 2⟩]) ∧
    ([⟨3, 1, 2⟩, ⟨3, 0, 2⟩, ⟨3, 0, 1⟩] : List Triangle) ≠
      [⟨3, 0, 1⟩, ⟨3, 0, 2⟩, ⟨3, 1, 2⟩] := by
  refine ⟨?_, ?_, ?_⟩ <;> with_unfolding_all decide

/-- C8 counterexample: `point_in_triangle` is not `true` *iff* strictly
inside — the point `(1, 0)` lies exactly on the boundary edge from `(0, 0)`
to `(2, 0)` (not strictly inside), yet the function returns `true`, because
the zero cross product takes `signum +1` like `+0.0` in Rust. -/
theorem c8_boundary_counterexample :
    pointInTriangle ⟨1, 0⟩ ⟨0, 0⟩ ⟨2, 0⟩ ⟨0, 2⟩ = true ∧
    ¬ StrictlyInside ⟨1, 0⟩ ⟨0, 0⟩ ⟨2, 0⟩ ⟨0, 2⟩ := by
  unfold StrictlyInside
  refine ⟨?_, ?_⟩ <;> with_unfolding_all decide

/-- C3: on the validated 7-point input `c3Pts`, exactly 5 of the 7 points lie
on the convex hull (indices 0, 2, 3, 4, 5; the interior points 1 and 6 do
not), yet the output has 5 triangles, not `2 * 7 - 5 - 2 = 7`. -/
theorem c3_count_formula_violated :
    triangulateM c3Pts 80 = some (.ok c3Out) ∧ c3Out.length = 5 ∧
    OnHull c3Q 0 ∧ OnHull c3Q 2 ∧ OnHull c3Q 3 ∧ OnHull c3Q 4 ∧ OnHull c3Q 5 ∧
    ¬ OnHull c3Q 1 ∧ ¬ OnHull c3Q 6 ∧ 2 * 7 - 5 - 2 ≠ 5 := by
  refine ⟨by with_unfolding_all decide, by with_unfolding_all decide,
    ⟨2, -1, by norm_num, by with_unfolding_all decide⟩,
    ⟨-1, -1, by norm_num, by with_unfolding_all decide⟩,
    ⟨0, -1, by norm_num, by with_unfolding_all decide⟩,
    ⟨-2, 1, by norm_num, by with_unfolding_all decide⟩,
    ⟨1, 1, by norm_num, by with_unfolding_all decide⟩,
    ?_, ?_, by norm_num⟩
  · rintro ⟨u, v, hne, h⟩
    have h2 := h 2 (by with_unfolding_all decide)
    have h3 := h 3 (by with_unfolding_all decide)
    have h5 := h 5 (by with_unfolding_all decide)
    have h0 := h 0 (by with_unfolding_all decide)
    simp only [c3Q, c3Pts, getP, toQ, ipt, List.map, List.getD] at h2 h3 h5 h0
    norm_num at h2 h3 h5 h0
    have hv : v = 0 := by linarith
    have hu : u = 0 := by linarith
    exact hne ⟨hu, hv⟩
  · rintro ⟨u, v, hne, h⟩
    have h2 := h 2 (by with_unfolding_all decide)
    have h3 := h 3 (by with_unfolding_all decide)
    have h5 := h 5 (by with_unfolding_all decide)
    have h4 := h 4 (by with_unfolding_all decide)
    simp only [c3Q, c3Pts, getP, toQ, ipt, List.map, List.getD] at h2 h3 h5 h4
    norm_num at h2 h3 h5 h4
    have hv : v = 0 := by linarith
    have hu : u = 0 := by linarith
    exact hne ⟨hu, hv⟩

/-- C9 counterexample: on three collinear points the hull returned by
`convex_hull` has 3 indices, not 2 (matching the repository's own
`works_with_horizontal_line` test). -/
theorem c9_collinear_counterexample :
    convexHull c9Pts = .ok ([0, 1, 2], []) ∧ ([0, 1, 2] : List Nat).length ≠ 2 := by
  refine ⟨?_, ?_⟩ <;> with_unfolding_all decide

/-! ### C10: `do_step` -/

theorem popLast_concat {α : Type} (l : List α) (a : α) : popLast (l ++ [a]) = some (a, l) := by
  induction l with
  | nil => rfl
  | cons x l ih =>
    cases l with
    | nil => rfl
    | cons y l' =>
      simp only [List.cons_append] at ih ⊢
      simp only [popLast, ih]

theorem addPointGen_queue (reorder : List Edge → List Edge) (s : DelaunayIncremental)
    (point_idx : PointIdx) (points : List QPoint) (fuel : Nat) (s' : DelaunayIncremental)
    (h : addPointGen reorder s point_idx points fuel = some s') :
    s'.points_to_add = s.points_to_add := by
  unfold addPointGen at h
  dsimp only at h
  split at h
  · cases h
  · split at h
    · cases h
    · split at h
      · cases h
      · cases h
        rfl

/-- C10.  `do_step` returns `true` exactly when the left-over queue is
non-empty; in that case the last queued index is removed and handed to
`add_point` (which ends with flip legalization), the resulting queue being
the remainder; with an empty queue it returns `false` and the entire state —
triangle array, queue, adjacency mapping — is returned unchanged, which also
covers a fresh `Triangulator`. -/
theorem c10_do_step_spec (reorder : List Edge → List Edge) (s : DelaunayIncremental)
    (points : List QPoint) (fuel : Nat) :
    (s.points_to_add = [] → doStepGen reorder s points fuel = some (false, s)) ∧
    (∀ q i, s.points_to_add = q ++ [i] →
      ∀ r, doStepGen reorder s points fuel = some r →
        r.1 = true ∧
        addPointGen reorder { s with points_to_add := q } i points fuel = some r.2 ∧
        r.2.points_to_add = q) := by
  constructor
  · intro h
    unfold doStepGen
    rw [h]
    rfl
  · intro q i hq r hr
    unfold doStepGen at hr
    rw [hq, popLast_concat] at hr
    dsimp only at hr
    cases hadd : addPointGen reorder { s with points_to_add := q } i points fuel with
    | none => rw [hadd] at hr; cases hr
    | some s' =>
      rw [hadd] at hr
      cases hr
      refine ⟨rfl, ?_, ?_⟩
      · rfl
      · simpa using addPointGen_queue reorder _ i points fuel s' hadd

/-- C10 witness: on a fresh triangulator (empty queue) `do_step` is a no-op
returning `false`. -/
theorem c10_do_step_spec_witness :
    doStepGen id DelaunayIncremental.new [] 1 = some (false, DelaunayIncremental.new) :=
  (c10_do_step_spec id DelaunayIncremental.new [] 1).1 rfl

/-! ### C6: validation -/

theorem findNaNFrom_shift (pts : List IPoint) (k : Nat) :
    findNaNFrom k pts = (findNaNFrom 0 pts).map (fun i => i + k) := by
  induction pts generalizing k with
  | nil => rfl
  | cons p rest ih =>
    simp only [findNaNFrom]
    by_cases h : isNanPt p
    · simp [h]
    · rw [if_neg (by simpa using h), if_neg (by simpa using h), ih (k + 1), ih 1,
        Option.map_map]
      congr 1
      funext j
      simp only [Function.comp_apply]
      omega

theorem findNaN_least (pts : List IPoint) :
    ∀ i, findNaNFrom 0 pts = some i →
      i < pts.length ∧ isNanPt (pts.getD i ⟨none, none⟩) = true ∧
        ∀ j < i, isNanPt (pts.getD j ⟨none, none⟩) = false := by
  induction pts with
  | nil => intro i h; cases h
  | cons p rest ih =>
    intro i h
    simp only [findNaNFrom] at h
    by_cases hp : isNanPt p
    · rw [if_pos hp] at h
      cases h
      exact ⟨by simp, by simpa using hp, by omega⟩
    · rw [if_neg (by simpa using hp), findNaNFrom_shift rest 1] at h
      cases hr : findNaNFrom 0 rest with
      | none => rw [hr] at h; cases h
      | some i' =>
        rw [hr] at h
        simp only [Option.map] at h
        cases h
        obtain ⟨hlen, hnan, hbefore⟩ := ih i' hr
        refine ⟨by simpa using hlen, by simpa using hnan, ?_⟩
        intro j hj
        cases j with
        | zero => simpa using hp
        | succ j' => simpa using hbefore j' (by omega)

theorem convexHull_nan (pts : List IPoint) (i : Nat) (h : findNaNFrom 0 pts = some i) :
    convexHull pts = .error (.NANInInput i) := by
  unfold convexHull sortIndicesChecked
  rw [h]
  rfl

theorem convexHull_ok (pts : List IPoint) (h : findNaNFrom 0 pts = none) :
    ∃ hl, convexHull pts = .ok hl := by
  unfold convexHull sortIndicesChecked
  rw [h]
  exact ⟨_, rfl⟩

theorem initialTriangulation_nan (s : DelaunayIncremental) (pts : List IPoint) (fuel : Nat)
    (i : Nat) (h : findNaNFrom 0 pts = some i) :
    initialTriangulation s pts fuel = some (.error (.NANInInput i)) := by
  unfold initialTriangulation
  rw [convexHull_nan pts i h]

theorem initialTriangulation_shape (s : DelaunayIncremental) (pts : List IPoint) (fuel : Nat)
    (h : findNaNFrom 0 pts = none) :
    ∀ r, initialTriangulation s pts fuel = some r → ∃ st, r = .ok st := by
  intro r hr
  obtain ⟨⟨hull, left⟩, hok⟩ := convexHull_ok pts h
  unfold initialTriangulation at hr
  rw [hok] at hr
  dsimp only at hr
  split at hr
  · split at hr
    · cases hr
    · cases hr
      exact ⟨_, rfl⟩
  · cases hr
    exact ⟨_, rfl⟩

/-- C6.  `triangulate` and the facade's `initial_triangulation` fail exactly
on validation: fewer than 3 points gives `TooFewPoints` (checked first), an
NaN coordinate gives `NANInInput` with the smallest offending index (the NaN
scan characterized below); with 3 or more NaN-free points no error value is
ever produced (the run yields `ok` when it returns); and every produced error
is `TooFewPoints` or `NANInInput`, never `PointOutsideOfHull`; on a
validation error the facade's state is returned untouched. -/
theorem c6_validation_spec (pts : List IPoint) (fuel : Nat) :
    (pts.length < 3 → triangulateM pts fuel = some (.error .TooFewPoints)) ∧
    (∀ i, findNaNFrom 0 pts = some i →
      i < pts.length ∧ isNanPt (pts.getD i ⟨none, none⟩) = true ∧
        ∀ j < i, isNanPt (pts.getD j ⟨none, none⟩) = false) ∧
    (∀ i, 3 ≤ pts.length → findNaNFrom 0 pts = some i →
      triangulateM pts fuel = some (.error (.NANInInput i))) ∧
    (3 ≤ pts.length → findNaNFrom 0 pts = none →
      ∀ r, triangulateM pts fuel = some r → ∃ ts, r = .ok ts) ∧
    (∀ r, triangulateM pts fuel = some r → r ≠ .error .PointOutsideOfHull) ∧
    (∀ t r, facadeInitial t pts fuel = some r →
      (pts.length < 3 → r = (t, .error .TooFewPoints)) ∧
      (∀ i, 3 ≤ pts.length → findNaNFrom 0 pts = some i →
        r = (t, .error (.NANInInput i))) ∧
      (∀ e, r.2 = .error e → r.1 = t ∧ (e = .TooFewPoints ∨ ∃ i, e = .NANInInput i))) := by
  have hlen : ∀ h : pts.length < 3, triangulateM pts fuel = some (.error .TooFewPoints) := by
    intro h
    unfold triangulateM triangulateGen
    rw [if_pos h]
  have hnan : ∀ i, 3 ≤ pts.length → findNaNFrom 0 pts = some i →
      triangulateM pts fuel = some (.error (.NANInInput i)) := by
    intro i h3 hn
    unfold triangulateM triangulateGen
    rw [if_neg (by omega), initialTriangulation_nan _ pts fuel i hn]
  have hvalid : 3 ≤ pts.length → findNaNFrom 0 pts = none →
      ∀ r, triangulateM pts fuel = some r → ∃ ts, r = .ok ts := by
    intro h3 hn r hr
    unfold triangulateM triangulateGen at hr
    rw [if_neg (by omega)] at hr
    cases hi : initialTriangulation .new pts fuel with
    | none => rw [hi] at hr; cases hr
    | some r0 =>
      obtain ⟨⟨st, ts⟩, rfl⟩ := initialTriangulation_shape _ pts fuel hn r0 hi
      rw [hi] at hr
      dsimp only at hr
      cases hrun : runSteps id (pts.map toQ) fuel st with
      | none => rw [hrun] at hr; cases hr
      | some s' =>
        rw [hrun] at hr
        cases hr
        exact ⟨_, rfl⟩
  refine ⟨hlen, findNaN_least pts, hnan, hvalid, ?_, ?_⟩
  · intro r hr
    by_cases h3 : pts.length < 3
    · rw [hlen h3] at hr
      cases hr
      simp
    · cases hn : findNaNFrom 0 pts with
      | some i =>
        rw [hnan i (by omega) hn] at hr
        cases hr
        simp
      | none =>
        obtain ⟨ts, rfl⟩ := hvalid (by omega) hn r hr
        simp
  · intro t r hr
    unfold facadeInitial at hr
    by_cases h3 : pts.length < 3
    · rw [if_pos h3] at hr
      cases hr
      exact ⟨fun _ => rfl, fun i hi => by omega, fun e he => by
        cases he
        exact ⟨rfl, Or.inl rfl⟩⟩
    · rw [if_neg h3] at hr
      cases hn : findNaNFrom 0 pts with
      | some i =>
        rw [initialTriangulation_nan t pts fuel i hn] at hr
        dsimp only at hr
        cases hr
        refine ⟨fun h => absurd h h3, fun i' hi' hn' => ?_, fun e he => ?_⟩
        · cases hn'
          rfl
        · cases he
          exact ⟨rfl, Or.inr ⟨i, rfl⟩⟩
      | none =>
        cases hi : initialTriangulation t pts fuel with
        | none => rw [hi] at hr; cases hr
        | some r0 =>
          obtain ⟨⟨st, ts⟩, rfl⟩ := initialTriangulation_shape t pts fuel hn r0 hi
          rw [hi] at hr
          dsimp only at hr
          cases hr
          refine ⟨fun h => absurd h h3, fun i' hi' hn' => ?_, fun e he => ?_⟩
          · cases hn'
          · cases he

/-! ### C1 (amended): shape of the retriangulation phase -/

theorem foldl_set_length (l : List (TriIdx × Triangle)) (tris : List Triangle) :
    (l.foldl (fun ts iv => ts.set iv.1 iv.2) tris).length = tris.length := by
  induction l generalizing tris with
  | nil => rfl
  | cons iv l ih => simpa using ih (tris.set iv.1 iv.2)

theorem overwriteLoop_spec (p : PointIdx) :
    ∀ (R : List TriIdx) (cavRev : List Edge) (tris : List Triangle)
      (m : TriangleEdgeMapping) (c' : List Edge) (t' : List Triangle)
      (m' : TriangleEdgeMapping),
      overwriteLoop p R cavRev tris m = some (c', t', m') →
      R.length ≤ cavRev.length ∧ c' = cavRev.drop R.length ∧
        t' = (R.zip ((cavRev.take R.length).map (newTri p))).foldl
          (fun ts iv => ts.set iv.1 iv.2) tris := by
  intro R
  induction R with
  | nil =>
    intro cavRev tris m c' t' m' h
    cases h
    exact ⟨Nat.zero_le _, rfl, rfl⟩
  | cons r R ih =>
    intro cavRev tris m c' t' m' h
    cases cavRev with
    | nil => cases h
    | cons e rest =>
      simp only [overwriteLoop] at h
      obtain ⟨hle, hc, ht⟩ := ih rest _ _ c' t' m' h
      refine ⟨by simpa using Nat.succ_le_succ hle, by simpa using hc, ?_⟩
      simpa using ht

theorem appendLoop_spec (p : PointIdx) :
    ∀ (cavRev : List Edge) (tris : List Triangle) (m : TriangleEdgeMapping)
      (ch : List TriIdx),
      (appendLoop p cavRev tris m ch).1 = tris ++ cavRev.map (newTri p) ∧
      (appendLoop p cavRev tris m ch).2.2 = ch ++ List.range' tris.length cavRev.length := by
  intro cavRev
  induction cavRev with
  | nil => intro tris m ch; simp [appendLoop]
  | cons e rest ih =>
    intro tris m ch
    simp only [appendLoop]
    obtain ⟨h1, h2⟩ := ih (tris ++ [newTri p e]) _ (ch ++ [(tris ++ [newTri p e]).length - 1])
    constructor
    · rw [h1]
      simp
    · rw [h2]
      simp only [List.length_append, List.length_cons, List.length_nil, List.append_assoc,
        List.singleton_append, List.length_map]
      rw [List.range'_succ]
      simp

/-- C1 (amended).  When retriangulation begins with removal list `R` and
cavity-edge list `E`, the insertion step requires (and, when it completes,
guarantees) `|E| ≥ |R|` — the source's `debug_assert` is `≥`, not equality,
and a normal interior insertion has `|E| = |R| + 2`.  Exactly one new
triangle is created per cavity edge, each of the form
`(new point, edge.index_0, edge.index_1)`: the first `|R|` popped edges
overwrite the removed slots in order and the remaining edges are appended,
so the array grows by `|E| - |R|`, and the changed-triangle list is `R`
followed by the appended slots. -/
theorem c1_retriangulation_amended (p : PointIdx) (R : List TriIdx) (E : List Edge)
    (tris : List Triangle) (m : TriangleEdgeMapping)
    (out : List Triangle × TriangleEdgeMapping × List TriIdx)
    (h : retriangulate p R E tris m = some out) :
    R.length ≤ E.length ∧
    out.1.length = tris.length + (E.length - R.length) ∧
    ∃ A B, E.reverse = A ++ B ∧ A.length = R.length ∧
      out.1 = (R.zip (A.map (newTri p))).foldl (fun ts iv => ts.set iv.1 iv.2) tris
        ++ B.map (newTri p) ∧
      out.2.2 = R ++ List.range' tris.length B.length := by
  unfold retriangulate at h
  cases ho : overwriteLoop p R E.reverse tris m with
  | none => rw [ho] at h; cases h
  | some res =>
    obtain ⟨c', t', m'⟩ := res
    rw [ho] at h
    dsimp only at h
    obtain ⟨hle, hc, ht⟩ := overwriteLoop_spec p R E.reverse tris m c' t' m' ho
    have hap := appendLoop_spec p c' t' m' []
    rcases hA : appendLoop p c' t' m' [] with ⟨t2, m2, app⟩
    rw [hA] at h hap
    dsimp only at h hap
    cases h
    have hlE : R.length ≤ E.length := by simpa using hle
    have ht'len : t'.length = tris.length := by rw [ht]; exact foldl_set_length _ _
    have hclen : c'.length = E.length - R.length := by
      rw [hc]
      simp
    refine ⟨hlE, ?_, E.reverse.take R.length, E.reverse.drop R.length,
      (List.take_append_drop _ _).symm, by simp [List.length_take]; omega, ?_, ?_⟩
    · rw [hap.1, List.length_append, ht'len, List.length_map, hclen]
    · rw [hap.1, ht, hc]
    · rw [hap.2, ht'len, hc]
      simp

/-- C1 (amended) witness: a concrete retriangulation with one removed slot
and two cavity edges satisfies the amended shape (`|E| ≥ |R|`, growth by
`|E| - |R|`). -/
theorem c1_retriangulation_amended_witness :
    ([0] : List TriIdx).length ≤ ([Edge.new 1 2, Edge.new 1 3] : List Edge).length ∧
    ((retriangulate 9 [0] [Edge.new 1 2, Edge.new 1 3] [⟨1, 2, 3⟩]
        .empty).getD ([], .empty, [])).1.length =
      ([⟨1, 2, 3⟩] : List Triangle).length +
        (([Edge.new 1 2, Edge.new 1 3] : List Edge).length -
          ([0] : List TriIdx).length) := by
  have h := c1_retriangulation_amended 9 [0] [Edge.new 1 2, Edge.new 1 3] [⟨1, 2, 3⟩]
    .empty ((retriangulate 9 [0] [Edge.new 1 2, Edge.new 1 3] [⟨1, 2, 3⟩]
        .empty).getD ([], .empty, [])) (by with_unfolding_all decide)
  exact ⟨h.1, h.2.1⟩

/-! ### C7: the 1-or-2-owners adjacency invariant -/

theorem lookup_updateA {κ ν : Type} [DecidableEq κ] (k k' : κ) (v : ν)
    (l : List (κ × ν)) :
    lookupA k' (updateA k v l) = if k' = k then some v else lookupA k' l := by
  induction l with
  | nil =>
    by_cases h : k' = k <;> simp [updateA, lookupA, h]
  | cons p l ih =>
    obtain ⟨k0, v0⟩ := p
    by_cases hk : k = k0
    · subst hk
      by_cases h : k' = k <;> simp [updateA, lookupA, h]
    · by_cases h : k' = k0
      · subst h
        have h' : ¬ k' = k := fun hc => hk hc.symm
        simp [updateA, hk, lookupA, h']
      · simp [updateA, hk, lookupA, h, ih]

theorem lookup_none_not_mem {κ ν : Type} [DecidableEq κ] (k : κ) (l : List (κ × ν)) :
    lookupA k l = none ↔ k ∉ l.map Prod.fst := by
  induction l with
  | nil => simp [lookupA]
  | cons p l ih =>
    obtain ⟨k0, v0⟩ := p
    by_cases h : k = k0 <;> simp [lookupA, h, ih]

theorem updateA_keys_set {κ ν : Type} [DecidableEq κ] (k k0 : κ) (v : ν)
    (l : List (κ × ν)) (hmem : k0 ∈ (updateA k v l).map Prod.fst) :
    k0 ∈ l.map Prod.fst ∨ k0 = k := by
  induction l with
  | nil => exact Or.inr (by simpa [updateA] using hmem)
  | cons q l ihq =>
    obtain ⟨k1, v1⟩ := q
    by_cases h1 : k = k1
    · subst h1
      rw [updateA, if_pos rfl] at hmem
      simp only [List.map_cons, List.mem_cons] at hmem
      rcases hmem with h2 | h2
      · exact Or.inr h2
      · exact Or.inl (List.mem_cons_of_mem _ h2)
    · rw [updateA, if_neg h1] at hmem
      simp only [List.map_cons, List.mem_cons] at hmem
      rcases hmem with h2 | h2
      · exact Or.inl (h2 ▸ List.mem_cons_self _ _)
      · rcases ihq h2 with h3 | h3
        · exact Or.inl (List.mem_cons_of_mem _ h3)
        · exact Or.inr h3

theorem updateA_keys {κ ν : Type} [DecidableEq κ] (k : κ) (v : ν) (l : List (κ × ν))
    (h : (l.map Prod.fst).Nodup) : ((updateA k v l).map Prod.fst).Nodup := by
  induction l with
  | nil => simp [updateA]
  | cons p l ih =>
    obtain ⟨k0, v0⟩ := p
    simp only [List.map_cons, List.nodup_cons] at h
    by_cases hk : k = k0
    · subst hk
      simpa [updateA] using h
    · simp only [updateA, if_neg hk, List.map_cons, List.nodup_cons]
      refine ⟨?_, ih h.2⟩
      intro hmem
      rcases updateA_keys_set k k0 v l hmem with h2 | h2
      · exact h.1 h2
      · exact hk h2.symm

theorem eraseA_keys_sub {κ ν : Type} [DecidableEq κ] (k k0 : κ) (l : List (κ × ν))
    (hmem : k0 ∈ (eraseA k l).map Prod.fst) : k0 ∈ l.map Prod.fst := by
  induction l with
  | nil => simp [eraseA] at hmem
  | cons q l ihq =>
    obtain ⟨k1, v1⟩ := q
    by_cases h1 : k = k1
    · exact List.mem_cons_of_mem _ (by simpa [eraseA, h1] using hmem)
    · rw [eraseA, if_neg h1] at hmem
      simp only [List.map_cons, List.mem_cons] at hmem
      rcases hmem with h2 | h2
      · exact h2 ▸ List.mem_cons_self _ _
      · exact List.mem_cons_of_mem _ (ihq h2)

theorem eraseA_keys {κ ν : Type} [DecidableEq κ] (k : κ) (l : List (κ × ν))
    (h : (l.map Prod.fst).Nodup) : ((eraseA k l).map Prod.fst).Nodup := by
  induction l with
  | nil => simp [eraseA]
  | cons p l ih =>
    obtain ⟨k0, v0⟩ := p
    simp only [List.map_cons, List.nodup_cons] at h
    by_cases hk : k = k0
    · simpa [eraseA, hk] using h.2
    · simp only [eraseA, if_neg hk, List.map_cons, List.nodup_cons]
      exact ⟨fun hmem => h.1 (eraseA_keys_sub k k0 l hmem), ih h.2⟩

theorem lookup_eraseA_self {κ ν : Type} [DecidableEq κ] (k : κ) (l : List (κ × ν))
    (h : (l.map Prod.fst).Nodup) : lookupA k (eraseA k l) = none := by
  induction l with
  | nil => simp [eraseA, lookupA]
  | cons p l ih =>
    obtain ⟨k0, v0⟩ := p
    simp only [List.map_cons, List.nodup_cons] at h
    by_cases hk : k = k0
    · subst hk
      rw [eraseA, if_pos rfl, lookup_none_not_mem]
      exact h.1
    · simp [eraseA, hk, lookupA, ih h.2]

theorem lookup_eraseA_ne {κ ν : Type} [DecidableEq κ] (k k' : κ) (hne : k' ≠ k)
    (l : List (κ × ν)) : lookupA k' (eraseA k l) = lookupA k' l := by
  induction l with
  | nil => simp [eraseA]
  | cons p l ih =>
    obtain ⟨k0, v0⟩ := p
    by_cases hk : k = k0
    · subst hk
      simp [eraseA, lookupA, hne, ih]
    · by_cases h' : k' = k0 <;> simp [eraseA, hk, lookupA, h', ih]

/-- The adjacency invariant of the claim: every edge entry present in the
edge→triangles map has exactly 1 or 2 owners. -/
def EdgeOwnersOK (m : TriangleEdgeMapping) : Prop :=
  ∀ e s, lookupA e m.edge_tri_map = some s → 1 ≤ s.length ∧ s.length ≤ 2

/-- `HashMap` key uniqueness for the canonical association list. -/
def EdgeKeysOK (m : TriangleEdgeMapping) : Prop :=
  (m.edge_tri_map.map Prod.fst).Nodup

theorem insertIdxSet_bounds (t : Nat) (l : List Nat) :
    1 ≤ (insertIdxSet t l).length ∧ (insertIdxSet t l).length ≤ l.length + 1 := by
  induction l with
  | nil => simp [insertIdxSet]
  | cons u rest ih =>
    by_cases h1 : t = u
    · simp [insertIdxSet, h1]
    · by_cases h2 : t < u
      · simp [insertIdxSet, h1, h2]
      · simpa [insertIdxSet, h1, h2] using by omega

theorem addOwner_lookup (em : List (Edge × List TriIdx)) (e : Edge) (t : TriIdx)
    (e' : Edge) :
    lookupA e' (addOwner em e t) =
      if e' = e then some (insertIdxSet t ((lookupA e em).getD [])) else lookupA e' em := by
  unfold addOwner
  cases h : lookupA e em <;> simp [lookup_updateA, h, insertIdxSet]

theorem addOwner_keys (em : List (Edge × List TriIdx)) (e : Edge) (t : TriIdx)
    (h : (em.map Prod.fst).Nodup) : ((addOwner em e t).map Prod.fst).Nodup := by
  unfold addOwner
  cases lookupA e em <;> simp [updateA_keys _ _ _ h]

theorem foldl_addOwner_props (t : TriIdx) :
    ∀ (edges : List Edge) (em : List (Edge × List TriIdx)),
      (∀ e s, lookupA e em = some s → 1 ≤ s.length ∧ s.length ≤ 2) →
      (em.map Prod.fst).Nodup →
      edges.Nodup →
      (∀ e ∈ edges, ∀ s, lookupA e em = some s → s.length ≤ 1) →
      (∀ e s, lookupA e (edges.foldl (fun em e => addOwner em e t) em) = some s →
        1 ≤ s.length ∧ s.length ≤ 2) ∧
      ((edges.foldl (fun em e => addOwner em e t) em).map Prod.fst).Nodup := by
  intro edges
  induction edges with
  | nil => intro em hOK hKeys _ _; exact ⟨hOK, hKeys⟩
  | cons e rest ih =>
    intro em hOK hKeys hnd hpre
    simp only [List.nodup_cons] at hnd
    simp only [List.foldl_cons]
    refine ih (addOwner em e t) ?_ (addOwner_keys em e t hKeys) hnd.2 ?_
    · intro e' s h
      rw [addOwner_lookup] at h
      by_cases he : e' = e
      · rw [if_pos he] at h
        cases h
        obtain ⟨h1, h2⟩ := insertIdxSet_bounds t ((lookupA e em).getD [])
        refine ⟨h1, le_trans h2 ?_⟩
        cases hl : lookupA e em with
        | none => simp
        | some s0 => simpa using hpre e (by simp) s0 hl
      · rw [if_neg he] at h
        exact hOK e' s h
    · intro e' he' s h
      rw [addOwner_lookup, if_neg (by intro hc; subst hc; exact hnd.1 he')] at h
      exact hpre e' (by simp [he']) s h

theorem removeOwner_props (em : List (Edge × List TriIdx)) (e : Edge) (t : TriIdx)
    (hOK : ∀ e' s, lookupA e' em = some s → 1 ≤ s.length ∧ s.length ≤ 2)
    (hKeys : (em.map Prod.fst).Nodup) :
    (∀ e' s, lookupA e' (removeOwner em e t) = some s → 1 ≤ s.length ∧ s.length ≤ 2) ∧
    ((removeOwner em e t).map Prod.fst).Nodup := by
  unfold removeOwner
  cases h0 : lookupA e em with
  | none =>
    simp only [h0]
    exact ⟨hOK, hKeys⟩
  | some s0 =>
    simp only
    have hKeys' : ((updateA e (s0.erase t) em).map Prod.fst).Nodup := updateA_keys _ _ _ hKeys
    have hlook : lookupA e (updateA e (s0.erase t) em) = some (s0.erase t) := by
      simp [lookup_updateA]
    rw [hlook]
    dsimp only
    by_cases hemp : (s0.erase t).isEmpty
    · rw [if_pos hemp]
      refine ⟨?_, eraseA_keys _ _ hKeys'⟩
      intro e' s h
      by_cases he : e' = e
      · rw [he, lookup_eraseA_self _ _ hKeys'] at h
        cases h
      · rw [lookup_eraseA_ne _ _ he, lookup_updateA, if_neg he] at h
        exact hOK e' s h
    · rw [if_neg hemp]
      refine ⟨?_, hKeys'⟩
      intro e' s h
      rw [lookup_updateA] at h
      by_cases he : e' = e
      · rw [if_pos he] at h
        cases h
        constructor
        · cases hse : s0.erase t with
          | nil => rw [hse] at hemp; simp at hemp
          | cons a l => simp [hse]
        · calc (s0.erase t).length ≤ s0.length := (s0.erase_sublist t).length_le
            _ ≤ 2 := (hOK e s0 h0).2
      · rw [if_neg he] at h
        exact hOK e' s h

theorem foldl_removeOwner_props (t : TriIdx) :
    ∀ (edges : List Edge) (em : List (Edge × List TriIdx)),
      (∀ e s, lookupA e em = some s → 1 ≤ s.length ∧ s.length ≤ 2) →
      (em.map Prod.fst).Nodup →
      (∀ e s, lookupA e (edges.foldl (fun em e => removeOwner em e t) em) = some s →
        1 ≤ s.length ∧ s.length ≤ 2) ∧
      ((edges.foldl (fun em e => removeOwner em e t) em).map Prod.fst).Nodup := by
  intro edges
  induction edges with
  | nil => intro em hOK hKeys; exact ⟨hOK, hKeys⟩
  | cons e rest ih =>
    intro em hOK hKeys
    simp only [List.foldl_cons]
    obtain ⟨h1, h2⟩ := removeOwner_props em e t hOK hKeys
    exact ih (removeOwner em e t) h1 h2

/-- A single adjacency-map operation. -/
inductive MapOp where
  | add : TriIdx → List Triangle → MapOp
  | rem : TriIdx → MapOp

def applyOp (m : TriangleEdgeMapping) : MapOp → TriangleEdgeMapping
  | .add ti tris => m.addTriangle ti tris
  | .rem ti => m.removeTriangle ti

def applyOps (m : TriangleEdgeMapping) : List MapOp → TriangleEdgeMapping
  | [] => m
  | op :: ops => applyOps (applyOp m op) ops

/-- The preconditions `add_triangle` `debug_assert`s (the 'valid mesh'
condition): the registered triangle has 3 distinct edges, and each of them
has at most one present owner. -/
def AddOK (m : TriangleEdgeMapping) (ti : TriIdx) (tris : List Triangle) : Prop :=
  (triangleEdges (getT tris ti)).Nodup ∧
    ∀ e ∈ triangleEdges (getT tris ti), ∀ s,
      lookupA e m.edge_tri_map = some s → s.length ≤ 1

/-- Every `add` in the sequence satisfies its precondition in the state where
it runs. -/
def OpsValid : TriangleEdgeMapping → List MapOp → Prop
  | _, [] => True
  | m, op :: ops =>
    (match op with
     | .add ti tris => AddOK m ti tris
     | .rem _ => True) ∧ OpsValid (applyOp m op) ops

theorem addTriangle_props (m : TriangleEdgeMapping) (ti : TriIdx) (tris : List Triangle)
    (hOK : EdgeOwnersOK m) (hKeys : EdgeKeysOK m) (hpre : AddOK m ti tris) :
    EdgeOwnersOK (m.addTriangle ti tris) ∧ EdgeKeysOK (m.addTriangle ti tris) := by
  unfold TriangleEdgeMapping.addTriangle
  exact foldl_addOwner_props ti (triangleEdges (getT tris ti)) m.edge_tri_map hOK hKeys
    hpre.1 hpre.2

theorem removeTriangle_props (m : TriangleEdgeMapping) (ti : TriIdx)
    (hOK : EdgeOwnersOK m) (hKeys : EdgeKeysOK m) :
    EdgeOwnersOK (m.removeTriangle ti) ∧ EdgeKeysOK (m.removeTriangle ti) := by
  unfold TriangleEdgeMapping.removeTriangle
  exact foldl_removeOwner_props ti ((lookupA ti m.tri_edge_map).getD []) m.edge_tri_map
    hOK hKeys

/-- C7.  Starting from a mapping satisfying the invariant (in particular the
empty mapping of a fresh triangulator), every sequence of
`add_triangle`/`remove_triangle` operations whose `add`s each satisfy the
source's `debug_assert` preconditions in the state where they run (the mesh
being valid there) preserves the invariant: after the sequence, every edge
present in the adjacency structure is owned by exactly 1 or 2 triangles —
never 0 and never 3 or more. -/
theorem c7_edge_owner_invariant (ops : List MapOp) :
    ∀ m : TriangleEdgeMapping, EdgeOwnersOK m → EdgeKeysOK m → OpsValid m ops →
      EdgeOwnersOK (applyOps m ops) := by
  induction ops with
  | nil => intro m hOK _ _; exact hOK
  | cons op ops ih =>
    intro m hOK hKeys hvalid
    obtain ⟨hop, hrest⟩ := hvalid
    cases op with
    | add ti tris =>
      obtain ⟨h1, h2⟩ := addTriangle_props m ti tris hOK hKeys hop
      exact ih _ h1 h2 hrest
    | rem ti =>
      obtain ⟨h1, h2⟩ := removeTriangle_props m ti hOK hKeys
      exact ih _ h1 h2 hrest

/-- C7 witness: the invariant holds after a concrete bootstrap-style
add/remove sequence from the fresh (empty) mapping. -/
theorem c7_edge_owner_invariant_witness :
    EdgeOwnersOK (applyOps .empty [.add 0 [⟨0, 1, 2⟩], .rem 0]) := by
  apply c7_edge_owner_invariant
  · intro e s h
    cases h
  · exact List.nodup_nil
  · refine ⟨⟨by decide, ?_⟩, ⟨trivial, trivial⟩⟩
    intro e _ s h
    cases h

/-! ### C8 (amended): point_in_triangle -/

theorem sgn_eq_of_mul_pos {x y : ℚ} (h : 0 < x * y) : sgn x = sgn y := by
  rcases lt_trichotomy x 0 with hx | hx | hx
  · have hy : y < 0 := by nlinarith
    simp [sgn, not_le.mpr hx, not_le.mpr hy]
  · rw [hx, zero_mul] at h
    exact absurd h (lt_irrefl 0)
  · have hy : 0 < y := by nlinarith
    simp [sgn, le_of_lt hx, le_of_lt hy]

theorem sgn_ne_of_mul_neg {x y : ℚ} (h : x * y < 0) : ¬ sgn x = sgn y := by
  rcases lt_trichotomy x 0 with hx | hx | hx
  · have hy : 0 < y := by nlinarith
    norm_num [sgn, not_le.mpr hx, le_of_lt hy]
  · rw [hx, zero_mul] at h
    exact absurd h (lt_irrefl 0)
  · have hy : y < 0 := by nlinarith
    norm_num [sgn, le_of_lt hx, not_le.mpr hy]

theorem sameSide_true_of_mul_pos {p0 p1 ls le : QPoint}
    (h : 0 < cross le p0 ls * cross le p1 ls) : sameSideOfLine p0 p1 ls le = true := by
  simp [sameSideOfLine, sgn_eq_of_mul_pos h]

theorem sameSide_false_of_mul_neg {p0 p1 ls le : QPoint}
    (h : cross le p0 ls * cross le p1 ls < 0) : sameSideOfLine p0 p1 ls le = false := by
  simp only [sameSideOfLine, decide_eq_false_iff_not]
  exact sgn_ne_of_mul_neg h

/-- C8 (amended).  `point_in_triangle` returns `false` whenever the triangle
is near-degenerate (`|cross(a,b,c)| < f32::EPSILON`); for a non-degenerate
triangle it returns `true` for every point strictly inside and `false` for
every point strictly outside; but — unlike the claim's 'iff strictly
inside' — a point exactly on the boundary may also yield `true`, because the
zero cross product gets `signum +1` (see the counterexample). -/
theorem c8_point_in_triangle_amended (p a b c : QPoint) :
    (|cross a b c| < f32Epsilon → pointInTriangle p a b c = false) ∧
    (f32Epsilon ≤ |cross a b c| → StrictlyInside p a b c →
      pointInTriangle p a b c = true) ∧
    (f32Epsilon ≤ |cross a b c| → StrictlyOutside p a b c →
      pointInTriangle p a b c = false) := by
  refine ⟨?_, ?_, ?_⟩
  · intro h
    simp [pointInTriangle, h]
  · intro he h
    obtain ⟨h1, h2, h3⟩ := h
    rw [pointInTriangle, if_neg (not_lt.mpr he)]
    rw [sameSide_true_of_mul_pos h1, sameSide_true_of_mul_pos h2,
      sameSide_true_of_mul_pos h3]
    rfl
  · intro he h
    rw [pointInTriangle, if_neg (not_lt.mpr he)]
    rcases h with h1 | h2 | h3
    · rw [sameSide_false_of_mul_neg h1]
      rfl
    · rw [sameSide_false_of_mul_neg h2]
      simp
    · rw [sameSide_false_of_mul_neg h3]
      simp

/-- C8 (amended) witness: a strictly interior point yields `true` and a
strictly exterior point yields `false` on a concrete non-degenerate
triangle. -/
theorem c8_point_in_triangle_amended_witness :
    pointInTriangle ⟨1, 1⟩ ⟨0, 0⟩ ⟨4, 0⟩ ⟨0, 4⟩ = true ∧
    pointInTriangle ⟨5, 5⟩ ⟨0, 0⟩ ⟨4, 0⟩ ⟨0, 4⟩ = false := by
  constructor
  · refine (c8_point_in_triangle_amended ⟨1, 1⟩ ⟨0, 0⟩ ⟨4, 0⟩ ⟨0, 4⟩).2.1 ?_ ?_
    · with_unfolding_all decide
    · unfold StrictlyInside
      with_unfolding_all decide
  · refine (c8_point_in_triangle_amended ⟨5, 5⟩ ⟨0, 0⟩ ⟨4, 0⟩ ⟨0, 4⟩).2.2 ?_ ?_
    · with_unfolding_all decide
    · unfold StrictlyOutside
      with_unfolding_all decide

/-! ### C9 (amended): collinear inputs -/

theorem insertSorted_length (points : List QPoint) (a : Nat) (l : List Nat) :
    (insertSorted points a l).length = l.length + 1 := by
  induction l with
  | nil => rfl
  | cons b l ih =>
    by_cases h : keyLt points b a <;> simp [insertSorted, h, ih]

theorem sortIndices_length (points : List QPoint) (l : List Nat) :
    (sortIndices points l).length = l.length := by
  induction l with
  | nil => rfl
  | cons a l ih => simp [sortIndices, insertSorted_length, ih]

theorem insertSorted_mem (points : List QPoint) (a : Nat) (l : List Nat) (x : Nat) :
    x ∈ insertSorted points a l ↔ x = a ∨ x ∈ l := by
  induction l with
  | nil => simp [insertSorted]
  | cons b l ih =>
    by_cases h : keyLt points b a
    · simp only [insertSorted, if_pos h, List.mem_cons, ih]
      tauto
    · simp only [insertSorted, if_neg h, List.mem_cons]

theorem sortIndices_mem (points : List QPoint) (l : List Nat) (x : Nat) :
    x ∈ sortIndices points l ↔ x ∈ l := by
  induction l with
  | nil => simp [sortIndices]
  | cons a l ih => simp [sortIndices, insertSorted_mem, ih]

theorem getP_mem (q : List QPoint) (i : Nat) (h : i < q.length) : getP q i ∈ q := by
  rw [getP, List.getD_eq_getElem]
  · exact List.getElem_mem h

theorem popLoop_collinear (q : List QPoint) (hcol : CollinearPts q) (cand : Nat)
    (hc : cand < q.length) :
    ∀ hull left, (∀ i ∈ hull, i < q.length) → popLoop q cand hull left = (hull, left) := by
  intro hull left hin
  match hull with
  | [] => rfl
  | [x] => rfl
  | top :: second :: rest =>
    have hz : cross (getP q second) (getP q top) (getP q cand) = 0 :=
      hcol _ (getP_mem q second (hin second (by simp))) _
        (getP_mem q top (hin top (by simp))) _ (getP_mem q cand hc)
    simp [popLoop, hz]

theorem halfHull_foldl_collinear (q : List QPoint) (hcol : CollinearPts q) :
    ∀ (cands : List Nat) (acc : List Nat), (∀ i ∈ cands, i < q.length) →
      (∀ i ∈ acc, i < q.length) →
      cands.foldl (halfHullStep q) (acc, []) = (cands.reverse ++ acc, []) := by
  intro cands
  induction cands with
  | nil => intro acc _ _; simp
  | cons c cs ih =>
    intro acc hcands hacc
    have hc : c < q.length := hcands c (by simp)
    have hstep : halfHullStep q (acc, []) c = (c :: acc, []) := by
      unfold halfHullStep
      rw [popLoop_collinear q hcol c hc acc [] hacc]
      rfl
    simp only [List.foldl_cons, hstep]
    rw [ih (c :: acc) (fun i hi => hcands i (by simp [hi]))
      (fun i hi => by
        rcases List.mem_cons.mp hi with h | h
        · exact h ▸ hc
        · exact hacc i h)]
    simp

theorem halfHull_collinear (q : List QPoint) (hcol : CollinearPts q)
    (cands : List Nat) (hin : ∀ i ∈ cands, i < q.length) :
    halfHull q cands = (cands, []) := by
  unfold halfHull
  rw [halfHull_foldl_collinear q hcol cands [] hin (by simp)]
  simp

theorem sortIndices_pair (q : List QPoint) (a b : Nat) :
    sortIndices q [a, b] = if keyLt q b a then [b, a] else [a, b] := by
  by_cases h : keyLt q b a <;> simp [sortIndices, insertSorted, h]

theorem convexHull_eq_of_noNaN (pts : List IPoint) (hn : findNaNFrom 0 pts = none) :
    convexHull pts =
      (let q := pts.map toQ
       let pis := sortIndices q (List.range pts.length)
       let lower := (halfHull q pis).1
       let left0 := (halfHull q pis).2
       let left := sortIndices q (left0 ++ [lower.getLastD 0, lower.headD 0])
       Except.ok (lower ++ ((halfHull q left.reverse).1.dropLast.drop 1),
         (halfHull q left.reverse).2)) := by
  unfold convexHull sortIndicesChecked
  rw [hn]
  rfl

theorem getLastD_mem (l : List Nat) (d : Nat) (h : l ≠ []) : l.getLastD d ∈ l := by
  induction l generalizing d with
  | nil => exact absurd rfl h
  | cons x xs ih =>
    rw [List.getLastD_cons]
    cases xs with
    | nil => simp [List.getLastD]
    | cons y ys => exact List.mem_cons_of_mem _ (ih x (by simp))

theorem headD_mem (l : List Nat) (d : Nat) (h : l ≠ []) : l.headD d ∈ l := by
  cases l with
  | nil => exact absurd rfl h
  | cons x xs => exact List.mem_cons_self _ _

/-- C9 (amended).  On an NaN-free input of 3 or more points that are all
collinear, `convex_hull` returns a hull consisting of *all* `n` point
indices (the indices sorted by (x, y)), with an empty leftover list — not a
2-point hull. -/
theorem c9_collinear_hull_amended (pts : List IPoint) (h3 : 3 ≤ pts.length)
    (hn : findNaNFrom 0 pts = none) (hcol : CollinearPts (pts.map toQ)) :
    convexHull pts = .ok (sortIndices (pts.map toQ) (List.range pts.length), []) ∧
    (sortIndices (pts.map toQ) (List.range pts.length)).length = pts.length := by
  have hlen : (sortIndices (pts.map toQ) (List.range pts.length)).length = pts.length := by
    rw [sortIndices_length, List.length_range]
  refine ⟨?_, hlen⟩
  rw [convexHull_eq_of_noNaN pts hn]
  set q := pts.map toQ with hqdef
  set L := sortIndices q (List.range pts.length) with hL
  have hq : q.length = pts.length := List.length_map pts toQ
  have hmemL : ∀ i ∈ L, i < q.length := by
    intro i hi
    rw [hq]
    have := (sortIndices_mem q (List.range pts.length) i).mp hi
    simpa using this
  have hLne : L ≠ [] := by
    intro h
    rw [h] at hlen
    simp at hlen
    omega
  have hHL : halfHull q L = (L, []) := halfHull_collinear q hcol L hmemL
  have ha : L.getLastD 0 ∈ L := getLastD_mem L 0 hLne
  have hb : L.headD 0 ∈ L := headD_mem L 0 hLne
  dsimp only
  rw [hHL]
  dsimp only
  rw [List.nil_append, sortIndices_pair]
  by_cases hk : keyLt q (L.headD 0) (L.getLastD 0)
  · rw [if_pos hk]
    rw [show ([L.headD 0, L.getLastD 0] : List Nat).reverse = [L.getLastD 0, L.headD 0]
      from rfl]
    rw [halfHull_collinear q hcol _ (by
      intro i hi
      rcases List.mem_cons.mp hi with h | h
      · exact h ▸ hmemL _ ha
      · rcases List.mem_cons.mp h with h2 | h2
        · exact h2 ▸ hmemL _ hb
        · simp at h2)]
    simp
  · rw [if_neg hk]
    rw [show ([L.getLastD 0, L.headD 0] : List Nat).reverse = [L.headD 0, L.getLastD 0]
      from rfl]
    rw [halfHull_collinear q hcol _ (by
      intro i hi
      rcases List.mem_cons.mp hi with h | h
      · exact h ▸ hmemL _ hb
      · rcases List.mem_cons.mp h with h2 | h2
        · exact h2 ▸ hmemL _ ha
        · simp at h2)]
    simp

/-- C9 (amended) witness: on three concrete collinear points the hull is all
three indices in sorted order with an empty leftover list. -/
theorem c9_collinear_hull_amended_witness :
    convexHull c9Pts = .ok (sortIndices (c9Pts.map toQ) (List.range c9Pts.length), []) := by
  refine (c9_collinear_hull_amended c9Pts (by decide) (by decide) ?_).1
  intro p hp r hr t ht
  fin_cases hp <;> fin_cases hr <;> fin_cases ht <;> with_unfolding_all decide

/-- C6 witness: the two validation errors at concrete inputs, via the
specification theorem. -/
theorem c6_validation_spec_witness :
    triangulateM [] 1 = some (.error .TooFewPoints) ∧
    triangulateM [ipt 0 0, ⟨none, some 0⟩, ipt (1/2) 1] 1 =
      some (.error (.NANInInput 1)) :=
  ⟨(c6_validation_spec [] 1).1 (by decide),
   (c6_validation_spec [ipt 0 0, ⟨none, some 0⟩, ipt (1/2) 1] 1).2.2.1 1 (by decide)
     (by with_unfolding_all decide)⟩

end Triangulator
